import Mathlib

/-!
# Verification of the redaction pipeline

A shallow embedding, over `List Char`, of the core of the redaction library:
the per-pattern validators (`library/redaction/redactors/*.py`), the
single-matcher rewriting loop (`BaseRedactor.redact` in
`library/redaction/base.py`), the multi-matcher composition, chunking and
merging (`library/redaction/utils/chunking.py`), the service entry points,
token store and `unmask` (`library/redaction/service.py`), and the
cloud-detector error contract
(`library/redaction/cloud_detectors/azure_text_analytics.py`).

Python strings are modelled as `List Char`.  Python's `int(s)` / `int(s, 16)`
are modelled as succeeding exactly on non-empty all-digit (resp. all-hex)
strings; the sign/whitespace/underscore tolerance of CPython's parser is not
reachable from the candidates the surrounding patterns produce.  Loops whose
index jumps by more than one are written with an explicit fuel argument equal
to the scanned length, so that every definition is structurally recursive and
kernel-reducible.
-/

/-- Numeric value of a decimal digit character, as in Python `int(d)`
for a single digit. -/
def charVal (c : Char) : Nat := c.toNat - 48

/-- Python slice `l[a:b]` (for `0 ≤ a ≤ b`, clamped at the length). -/
def pySlice (l : List Char) (a b : Nat) : List Char := (l.take b).drop a

/-- The function `chars s` is the character list of a string literal. -/
def chars (s : String) : List Char := s.data

/-- Boolean test that `pat` is an initial run of `l`
(the check Python performs at each scan position of `str.replace` /
`str.find`). -/
def leadsWith : List Char → List Char → Bool
  | [], _ => true
  | _ :: _, [] => false
  | p :: ps, c :: cs => p == c && leadsWith ps cs

/-- Python `s.replace(pat, rep, 1)`: replace the leftmost occurrence of
`pat` in `s` by `rep`; `s` unchanged when `pat` does not occur. -/
def replaceFirst (pat rep : List Char) : List Char → List Char
  | [] => if leadsWith pat [] then rep else []
  | c :: cs =>
    if leadsWith pat (c :: cs) then rep ++ (c :: cs).drop pat.length
    else c :: replaceFirst pat rep cs

/-- Python `s.split(sep)` for a one-character separator: keeps empty
pieces, `"".split(c) = [""]`. -/
def splitOnChar (sep : Char) : List Char → List (List Char)
  | [] => [[]]
  | c :: cs =>
    let r := splitOnChar sep cs
    if c = sep then [] :: r else (c :: r.headI) :: r.tail

/-- Python `'::' in text` (used by `IPAddressRedactor._validate_ipv6`). -/
def hasDColon : List Char → Bool
  | [] => false
  | [_] => false
  | c :: d :: t => (c = ':' ∧ d = ':') || hasDColon (d :: t)

/-- Python `text.split('::')`: leftmost non-overlapping occurrences of the
two-character separator. -/
def splitDColon : List Char → List (List Char)
  | [] => [[]]
  | [c] => [[c]]
  | c :: d :: t =>
    if c = ':' ∧ d = ':' then [] :: splitDColon t
    else
      let r := splitDColon (d :: t)
      (c :: r.headI) :: r.tail

/-- Python `text.replace('::', ':')`: collapse each leftmost
non-overlapping `"::"` into `":"`, scanning left to right. -/
def replaceDColon : List Char → List Char
  | [] => []
  | [c] => [c]
  | c :: d :: t =>
    if c = ':' ∧ d = ':' then ':' :: replaceDColon t
    else c :: replaceDColon (d :: t)

/-- Python `re.sub(r'\D', '', text)`: keep only the decimal digits. -/
def stripDigits (l : List Char) : List Char := l.filter Char.isDigit

/-- Value of an all-digit string, as computed by Python `int(s)`. -/
def digitsToNat (l : List Char) : Nat := l.foldl (fun a c => a * 10 + charVal c) 0

/-- Python `int(s)` on the candidate strings reachable here: succeeds
exactly on non-empty all-digit strings (see the module comment). -/
def pyParseNat (l : List Char) : Option Nat :=
  if !l.isEmpty && l.all Char.isDigit then some (digitsToNat l) else none

/-- Hexadecimal digit characters, the alphabet accepted by `int(part, 16)`
on the candidates reachable here. -/
def isHexDigitChar (c : Char) : Bool :=
  c.isDigit || ('a' ≤ c && c ≤ 'f') || ('A' ≤ c && c ≤ 'F')

/-- Value of one hex digit. -/
def hexVal (c : Char) : Nat :=
  if c.isDigit then charVal c
  else if 'a' ≤ c && c ≤ 'f' then c.toNat - 87
  else c.toNat - 55

/-- Python `int(s, 16)` on the candidate strings reachable here. -/
def pyParseHex (l : List Char) : Option Nat :=
  if !l.isEmpty && l.all isHexDigitChar then
    some (l.foldl (fun a c => a * 16 + hexVal c) 0)
  else none

/-! ## Credit card validator (`redactors/credit_card.py`) -/

/-- Take `a :: skip one :: ...`: Python's extended slice `xs[0::2]`. -/
def everyOther : List Nat → List Nat
  | [] => []
  | [a] => [a]
  | a :: _ :: t => a :: everyOther t

/-- Sum of the decimal digits of `2 * d`, as Python's
`sum(digits_of(d * 2))` computes it for a digit `d` (`2 * d ≤ 18 < 100`). -/
def doubleDigitSum (d : Nat) : Nat := 2 * d / 10 + 2 * d % 10

/-- Embeds `CreditCardRedactor.validate.luhn_checksum`, on the digit values:
`odd_digits = digits[-1::-2]`, `even_digits = digits[-2::-2]`,
`sum(odd) + Σ sum(digits_of(2*d)) for d in even`, mod 10. -/
def luhnChecksum (ds : List Nat) : Nat :=
  ((everyOther ds.reverse).sum +
    ((everyOther (ds.reverse.drop 1)).map doubleDigitSum).sum) % 10

/-- Embeds `CreditCardRedactor.validate`: 13–19 stripped digits and Luhn checksum
zero. -/
def creditCardValidate (text : List Char) : Bool :=
  let digits := stripDigits text
  if digits.length < 13 || digits.length > 19 then false
  else luhnChecksum (digits.map charVal) == 0

/-- The spec's independent wording of the Luhn sum: walk the digits from the
right, doubling (and digit-summing) every second one.  The flag says whether
the current head (the current rightmost digit) is doubled. -/
def luhnFold : List Nat → Bool → Nat
  | [], _ => 0
  | d :: t, dbl => (if dbl then doubleDigitSum d else d) + luhnFold t (!dbl)

/-! ## SSN validator (`redactors/ssn.py`) -/

/-- Embeds `SSNRedactor.validate`: exactly 9 stripped digits; rejects area
`000`/`666`/`900+`, group `00`, serial `0000`. -/
def ssnValidate (text : List Char) : Bool :=
  let digits := stripDigits text
  if digits.length ≠ 9 then false
  else
    let area := digitsToNat (digits.take 3)
    if area = 0 || area = 666 || area ≥ 900 then false
    else
      let grp := digitsToNat (pySlice digits 3 5)
      if grp = 0 then false
      else
        let serial := digitsToNat (pySlice digits 5 9)
        if serial = 0 then false
        else true

/-- The claim's wording of the SSN acceptance condition: 9 stripped digits,
area not `000`, not `666`, not in `900–999`, group not `00`, serial not
`0000`. -/
def ssnSpecOk (text : List Char) : Prop :=
  let d := stripDigits text
  d.length = 9 ∧
  digitsToNat (d.take 3) ≠ 0 ∧
  digitsToNat (d.take 3) ≠ 666 ∧
  ¬(900 ≤ digitsToNat (d.take 3) ∧ digitsToNat (d.take 3) ≤ 999) ∧
  digitsToNat ((d.drop 3).take 2) ≠ 0 ∧
  digitsToNat (d.drop 5) ≠ 0

instance (s : List Char) : Decidable (ssnSpecOk s) :=
  inferInstanceAs (Decidable (_ ∧ _ ∧ _ ∧ _ ∧ _ ∧ _))

/-! ## IP address validator (`redactors/ip_address.py`) -/

/-- Embeds `IPAddressRedactor._validate_ipv4`. -/
def ipv4Validate (text : List Char) : Bool :=
  let parts := splitOnChar '.' text
  if parts.length ≠ 4 then false
  else parts.all fun p =>
    match pyParseNat p with
    | some n => !(n > 255)
    | none => false

/-- Embeds `IPAddressRedactor._validate_ipv6`: a `::` string must split into at
most two pieces on `::`, otherwise the plain colon split must have exactly
8 pieces; then every non-empty piece of the colon split of
`text.replace('::', ':')` must be hex of length at most 4. -/
def ipv6Validate (text : List Char) : Bool :=
  let structOk : Bool :=
    if hasDColon text then decide ((splitDColon text).length ≤ 2)
    else decide ((splitOnChar ':' text).length = 8)
  if !structOk then false
  else (splitOnChar ':' (replaceDColon text)).all fun part =>
    if part.isEmpty then true
    else
      match pyParseHex part with
      | some _ => !(part.length > 4)
      | none => false

/-- Embeds `IPAddressRedactor.validate`. -/
def ipValidate (text : List Char) : Bool := ipv4Validate text || ipv6Validate text

/-- The claim's IPv4 condition: four dot-separated decimal octets, each in
`0–255`. -/
def ipv4SpecOctets (s : List Char) : Prop :=
  (splitOnChar '.' s).length = 4 ∧
  ∀ p ∈ splitOnChar '.' s, p ≠ [] ∧ (∀ c ∈ p, c.isDigit = true) ∧ digitsToNat p ≤ 255

instance (s : List Char) : Decidable (ipv4SpecOctets s) :=
  inferInstanceAs (Decidable (_ ∧ ∀ p ∈ splitOnChar '.' s, _ ∧ _ ∧ _))

/-- The colon-separated groups of an IPv6 candidate: the non-empty pieces
of the plain colon split. -/
def ipGroups (s : List Char) : List (List Char) :=
  (splitOnChar ':' s).filter fun p => !p.isEmpty

/-- The claim's IPv6 condition, as stated: at most one `::` occurrence
(at most 2 pieces when split on `::`), at most 8 colon-separated groups,
each group at most 4 hex digits. -/
def ipv6SpecClaimed (s : List Char) : Prop :=
  (splitDColon s).length ≤ 2 ∧
  (ipGroups s).length ≤ 8 ∧
  ∀ g ∈ ipGroups s, (∀ c ∈ g, isHexDigitChar c = true) ∧ g.length ≤ 4

instance (s : List Char) : Decidable (ipv6SpecClaimed s) :=
  inferInstanceAs (Decidable (_ ∧ _ ∧ ∀ g ∈ ipGroups s, _ ∧ _))

/-- The amended IPv6 condition, matching the code: the 8-group bound is
enforced (as exactly 8 split pieces) only when no `::` is present; a
compressed address is checked only for at most 2 `::`-split pieces and
for its groups being hex of length at most 4. -/
def ipv6SpecAmended (s : List Char) : Prop :=
  (if hasDColon s then (splitDColon s).length ≤ 2
   else (splitOnChar ':' s).length = 8) ∧
  ∀ g ∈ ipGroups s, (∀ c ∈ g, isHexDigitChar c = true) ∧ g.length ≤ 4

instance (s : List Char) : Decidable (ipv6SpecAmended s) :=
  inferInstanceAs (Decidable (_ ∧ ∀ g ∈ ipGroups s, _ ∧ _))

/-! ## Passport validator (`redactors/passport.py`) -/

/-- Embeds `PassportRedactor.validate`: strip spaces; length 6–9; at least one
letter or all digits; alphanumeric only. -/
def passportValidate (text : List Char) : Bool :=
  let clean := text.filter fun c => c ≠ ' '
  if clean.length < 6 || clean.length > 9 then false
  else
    let hasLetter := clean.any Char.isAlpha
    let allDigits := !clean.isEmpty && clean.all Char.isDigit
    if !(hasLetter || allDigits) then false
    else if !(!clean.isEmpty && clean.all Char.isAlphanum) then false
    else true

/-! ## Chunker (`utils/chunking.py`)

`TextChunker.chunk_text` advances a window of `chunk_size` characters and,
when the tentative end is not the end of the text, backs off to just after
the last space `rfind` locates strictly after the window start.  The loop
is written with a fuel argument (`text.length` suffices for any positive
`chunk_size`; Python does not terminate on `chunk_size = 0`). -/

/-- Python `text.rfind(' ', start, stop)`: the largest `i` with
`start ≤ i < stop` and `text[i] = ' '`; `none` models Python's `-1`. -/
def rfindSpace (text : List Char) (start : Nat) : Nat → Option Nat
  | 0 => none
  | s + 1 =>
    if s + 1 ≤ start then none
    else if text.get? s = some ' ' then some s
    else rfindSpace text start s

/-- One step of the `chunk_text` loop: the final end position of the chunk
beginning at `start`. -/
def chunkEnd (text : List Char) (csize start : Nat) : Nat :=
  let e0 := min (start + csize) text.length
  if e0 < text.length then
    match rfindSpace text start e0 with
    | some i => if start < i then i + 1 else e0
    | none => e0
  else e0

/-- The `while start < len(text)` loop of `chunk_text`. -/
def chunkLoopF (text : List Char) (csize : Nat) : Nat → Nat → List (List Char × Nat)
  | 0, _ => []
  | f + 1, start =>
    if text.length ≤ start then []
    else
      let e := chunkEnd text csize start
      if start < e then (pySlice text start e, start) :: chunkLoopF text csize f e
      else []

/-- Embeds `TextChunker.chunk_text`. -/
def chunkText (text : List Char) (csize : Nat) : List (List Char × Nat) :=
  if text.length ≤ csize then [(text, 0)]
  else chunkLoopF text csize text.length 0

/-! ## Data model (`base.py`) -/

/-- Embeds `RedactionToken`: the `redaction_type` enum value is kept as its
category string. -/
structure RToken where
  token_id : List Char
  original_value : List Char
  category : List Char
  start_pos : Nat
  end_pos : Nat
deriving DecidableEq

/-- Embeds `TextChunker.merge_results` on `(redacted_chunk, start, tokens)`
triples: plain concatenation of texts and of token lists. -/
def mergeResults (rs : List (List Char × Nat × List RToken)) : List Char × List RToken :=
  match rs with
  | [] => ([], [])
  | [r] => (r.1, r.2.2)
  | _ => ((rs.map fun r => r.1).flatten, (rs.map fun r => r.2.2).flatten)

/-- A configured pattern matcher: `find` models `finditer` of its compiled
pattern (the match spans, left to right), `validate` its semantic check,
and `genId` its `generate_token_id(value, position)` (a bracketed
hash-derived tag in the code). -/
structure Matcher where
  find : List Char → List (Nat × Nat)
  validate : List Char → Bool
  genId : List Char → Nat → List Char
  category : List Char

/-- Embeds `BaseRedactor.redact`: iterate the matches in reverse, validating each
candidate (taken from `text` by its span) and splicing the token id into the
working copy; tokens are accumulated front-first, so they come out in match
order.  `foldr` performs exactly this right-to-left pass. -/
def redactorRedact (m : Matcher) (text : List Char) (start_pos : Nat) :
    List Char × List RToken :=
  (m.find text).foldr
    (fun se acc =>
      let val := pySlice text se.1 se.2
      if m.validate val then
        let tid := m.genId val (start_pos + se.1)
        (acc.1.take se.1 ++ tid ++ acc.1.drop se.2,
         ⟨tid, val, m.category, start_pos + se.1, start_pos + se.2⟩ :: acc.2)
      else acc)
    (text, [])

/-- Embeds `RedactionService._redact_single`, local-regex branch: thread the
current text through the redactors in order, appending each one's tokens. -/
def redactSingleLocal (ms : List Matcher) (text : List Char) (start_pos : Nat) :
    List Char × List RToken :=
  ms.foldl
    (fun acc m =>
      let r := redactorRedact m acc.1 start_pos
      (r.1, acc.2 ++ r.2))
    (text, [])

/-! ## Token store and service (`service.py`) -/

/-- The `_token_store` dict: an insertion-ordered association list, as
Python dicts are (a put on an existing key updates in place, a new key
appends). -/
abbrev TokenStore : Type := List (List Char × RToken)

/-- Embeds `self._token_store[token.token_id] = token`. -/
def storePut (store : TokenStore) (t : RToken) : TokenStore :=
  if store.any fun p => p.1 = t.token_id then
    store.map fun p => if p.1 = t.token_id then (p.1, t) else p
  else store ++ [(t.token_id, t)]

/-- Store every token of a result (the `store_tokens` loop). -/
def storeTokens (store : TokenStore) (toks : List RToken) : TokenStore :=
  toks.foldl storePut store

/-- Embeds `list(self._token_store.values())`. -/
def storeValues (store : TokenStore) : List RToken :=
  store.map Prod.snd

/-- The service configuration fields the local pipeline reads. -/
structure ServiceConfig where
  redactors : List Matcher
  chunk_size : Nat
  async_threshold : Nat

/-- Embeds `RedactionService.redact` minus the store update: single-segment path
when the text fits in a chunk, otherwise chunk, redact each chunk at its
offset, and merge.  Parallel and sequential chunk processing produce the
same index-ordered results (`ParallelProcessor.process_parallel` writes
into an index-addressed output), so both are this `map`. -/
def serviceRedactCore (cfg : ServiceConfig) (text : List Char) :
    List Char × List RToken :=
  if cfg.chunk_size < text.length then
    let chunks := chunkText text cfg.chunk_size
    mergeResults (chunks.map fun c =>
      let r := redactSingleLocal cfg.redactors c.1 c.2
      (r.1, c.2, r.2))
  else redactSingleLocal cfg.redactors text 0

/-- Embeds `RedactionService.redact` with the token store threaded explicitly:
empty text returns the empty result at once (no store update); otherwise
the result's tokens are stored when `store_tokens` is set. -/
def serviceRedact (cfg : ServiceConfig) (store : TokenStore) (text : List Char)
    (store_tokens : Bool) : (List Char × List RToken) × TokenStore :=
  if text.isEmpty then (([], []), store)
  else
    let res := serviceRedactCore cfg text
    (res, if store_tokens then storeTokens store res.2 else store)

/-- Embeds `RedactionService.redact_async`, which computes the same result as the sync
path — every branch ends in `_redact_single` on the same segments — and
differs only in where the work runs; see `redactAsyncPath` for that
choice. -/
def serviceRedactAsync (cfg : ServiceConfig) (store : TokenStore) (text : List Char)
    (store_tokens : Bool) : (List Char × List RToken) × TokenStore :=
  serviceRedact cfg store text store_tokens

/-- Where `redact_async` runs the work. -/
inductive ExecPath where
  | empty
  | chunked
  | executor
  | inline
deriving DecidableEq

/-- The dispatch ladder of `RedactionService.redact_async`: empty text
returns at once; `len(text) > chunk_size` chunks; `len(text) >
async_threshold` goes to the executor; otherwise the call runs inline. -/
def redactAsyncPath (chunk_size async_threshold : Nat) (text : List Char) : ExecPath :=
  if text.isEmpty then .empty
  else if chunk_size < text.length then .chunked
  else if async_threshold < text.length then .executor
  else .inline

/-- Embeds `RedactionService.unmask`: with no supplied list the stored tokens are
used (see `serviceUnmask`); tokens are sorted by `start_pos` descending and
each token id's first remaining occurrence is replaced by its original
value. -/
def unmask (redactedText : List Char) (tokens : List RToken) : List Char :=
  if tokens.isEmpty then redactedText
  else
    (tokens.mergeSort fun a b => Nat.ble b.start_pos a.start_pos).foldl
      (fun acc t => replaceFirst t.token_id t.original_value acc) redactedText

/-- Embeds `service.unmask(redacted_text)` with `tokens=None`: use the store's
values. -/
def serviceUnmask (store : TokenStore) (redactedText : List Char) : List Char :=
  unmask redactedText (storeValues store)

/-! ## Cloud detector (`cloud_detectors/azure_text_analytics.py`) -/

/-- One entity of a detector response. -/
structure Entity where
  text : List Char
  category : List Char
  offset : Nat
  length : Nat

/-- Embeds `AzureTextAnalyticsPIIDetector.detect_pii` around the network call:
the call either returns entities or raises, and any raised exception is
caught and degraded to the empty entity list.  The call itself is the
`Except` argument (exceptions carry a message string). -/
def detectPii (call : Except (List Char) (List Entity)) : List Entity :=
  match call with
  | .ok es => es
  | .error _ => []

/-- Embeds `AzureTextAnalyticsPIIDetector._redact_with_entities`: entities sorted
by offset descending are spliced over the working text and appended to the
token list; `genId` stands for the bracketed `CATEGORY_md5hash8` tag
construction. -/
def redactWithEntities (genId : List Char → Nat → List Char → List Char)
    (text : List Char) (entities : List Entity) : List Char × List RToken :=
  if entities.isEmpty then (text, [])
  else
    (entities.mergeSort fun a b => Nat.ble b.offset a.offset).foldl
      (fun acc e =>
        let start := e.offset
        let stop := start + e.length
        let replacement := genId e.text start e.category
        (acc.1.take start ++ replacement ++ acc.1.drop stop,
         acc.2 ++ [⟨replacement, e.text, e.category, start, stop⟩]))
      (text, [])

/-- Embeds `AzureTextAnalyticsPIIDetector.redact`: detect (with the exception
contract of `detectPii`), then redact locally. -/
def cloudRedact (genId : List Char → Nat → List Char → List Char)
    (detector : List Char → Except (List Char) (List Entity))
    (text : List Char) : List Char × List RToken :=
  if text.isEmpty then ([], [])
  else redactWithEntities genId text (detectPii (detector text))

/-! ## Concrete matchers and claim-side predicates -/

/-- Embeds `re.finditer` for a literal pattern: the spans of the leftmost
non-overlapping occurrences, scanning left to right (fuelled; the fuel
`text.length + 1` always suffices for a non-empty pattern). -/
def findLitF (pat text : List Char) : Nat → Nat → List (Nat × Nat)
  | 0, _ => []
  | f + 1, i =>
    if text.length ≤ i then []
    else if leadsWith pat (text.drop i) then
      (i, i + pat.length) :: findLitF pat text f (i + pat.length)
    else findLitF pat text f (i + 1)

/-- All non-overlapping matches of a literal pattern. -/
def findLiteral (pat text : List Char) : List (Nat × Nat) :=
  if pat.isEmpty then [] else findLitF pat text (text.length + 1) 0

/-- A custom redactor whose pattern is the literal `pat`, whose validation
always accepts, and whose token ids are the fixed bracketed tag `tid`
(standing for the deterministic hash tag the code would emit). -/
def litMatcher (pat tid cat : List Char) : Matcher :=
  { find := fun text => findLiteral pat text
    validate := fun _ => true
    genId := fun _ _ => tid
    category := cat }

/-- The invariant claimed for every token of a result: its span, read in
the original (pre-redaction) input, is its original value. -/
def positionsOriginal (text : List Char) (tokens : List RToken) : Prop :=
  ∀ t ∈ tokens, pySlice text t.start_pos t.end_pos = t.original_value

instance (text : List Char) (tokens : List RToken) :
    Decidable (positionsOriginal text tokens) :=
  inferInstanceAs (Decidable (∀ t ∈ tokens, _ = _))

/-- Concatenating the chunk texts in order reproduces the input. -/
def chunkJoined (text : List Char) (csize : Nat) : Prop :=
  ((chunkText text csize).map Prod.fst).flatten = text

instance (text : List Char) (csize : Nat) : Decidable (chunkJoined text csize) :=
  inferInstanceAs (Decidable (_ = _))

/-- The claim's boundary condition, as stated: every chunk boundary that is
not the end of the text either follows a space, or sits at the hard
`chunk_size` limit with no space anywhere in the window `[start, start +
chunk_size)`. -/
def chunkBoundariesClaimed (text : List Char) (csize : Nat) : Prop :=
  ∀ p ∈ chunkText text csize, p.2 + p.1.length < text.length →
    text.get? (p.2 + p.1.length - 1) = some ' ' ∨
    (p.1.length = csize ∧ ∀ j < p.2 + csize, p.2 ≤ j → text.get? j ≠ some ' ')

instance (text : List Char) (csize : Nat) :
    Decidable (chunkBoundariesClaimed text csize) :=
  inferInstanceAs (Decidable (∀ p ∈ chunkText text csize, _ → _ ∨ _))

/-- The amended boundary condition: in the hard-limit case the window is
spaceless only strictly after its first position (`rfind`'s result is
compared with `last_space > start`, so a space exactly at `start` is
ignored). -/
def chunkBoundariesAmended (text : List Char) (csize : Nat) : Prop :=
  ∀ p ∈ chunkText text csize, p.2 + p.1.length < text.length →
    text.get? (p.2 + p.1.length - 1) = some ' ' ∨
    (p.1.length = csize ∧ ∀ j < p.2 + csize, p.2 < j → text.get? j ≠ some ' ')

instance (text : List Char) (csize : Nat) :
    Decidable (chunkBoundariesAmended text csize) :=
  inferInstanceAs (Decidable (∀ p ∈ chunkText text csize, _ → _ ∨ _))

/-! ## Decomposition of a redacted text into segments and token slots

`unmask` is string-replacement keyed on token ids, so its correctness is
proved against a decomposition of the redacted text into plain segments
interleaved with token-id slots, the original text carrying the original
values in the same slots.  The freshness the spec demands of ids ("cannot
collide with ordinary text") is expressed by the bracket discipline below:
ids are bracketed tags, segments and original values are bracket-free, and
ids are pairwise distinct. -/

/-- One slot of the decomposition: the plain segment before the token, the
token id, and the original value. -/
structure Slot where
  seg : List Char
  tid : List Char
  orig : List Char

/-- Assemble the decomposition, reading each slot through `f`. -/
def mixWith (f : Slot → List Char) (slots : List Slot) (tail : List Char) : List Char :=
  slots.foldr (fun s acc => s.seg ++ f s ++ acc) tail

/-- The redacted text of a decomposition. -/
def mixI (slots : List Slot) (tail : List Char) : List Char := mixWith Slot.tid slots tail

/-- The original text of a decomposition. -/
def mixO (slots : List Slot) (tail : List Char) : List Char := mixWith Slot.orig slots tail

/-- Assemble a partially restored decomposition: a flagged slot shows its
original value, an unflagged one still shows its token id. -/
def mixS (ps : List (Slot × Bool)) (tail : List Char) : List Char :=
  ps.foldr (fun p acc => p.1.seg ++ (if p.2 then p.1.orig else p.1.tid) ++ acc) tail

/-- The `(token id, original value)` pairs still to be restored. -/
def pendingS (ps : List (Slot × Bool)) : List (List Char × List Char) :=
  (ps.filter fun p => !p.2).map fun p => (p.1.tid, p.1.orig)

/-- No bracket characters occur. -/
def bracketFree (l : List Char) : Prop := '[' ∉ l ∧ ']' ∉ l

instance (l : List Char) : Decidable (bracketFree l) :=
  inferInstanceAs (Decidable (_ ∧ _))

/-- A bracketed tag: an opening bracket, a bracket-free middle, a closing
bracket — the shape of every generated token id. -/
def bracketShaped (l : List Char) : Prop :=
  ∃ mid, l = '[' :: (mid ++ [']']) ∧ '[' ∉ mid ∧ ']' ∉ mid

/-- Well-formedness of a decomposition: segments, originals and the tail
are bracket-free, ids are bracketed tags, and ids are pairwise distinct. -/
def wfSlots (slots : List Slot) (tail : List Char) : Prop :=
  (∀ s ∈ slots, bracketFree s.seg ∧ bracketFree s.orig ∧ bracketShaped s.tid) ∧
  bracketFree tail ∧
  (slots.map Slot.tid).Pairwise (· ≠ ·)

/-- Same, for a flagged state. -/
def wfState (ps : List (Slot × Bool)) (tail : List Char) : Prop :=
  wfSlots (ps.map Prod.fst) tail

/-! # Theorems -/

/-! ## C9 — empty input -/

/-- C9: `redact` and `redact_async` on the empty string return an empty
redacted text with no tokens and leave the token store untouched, for
either value of `store_tokens`; the async dispatch returns at once. -/
theorem c9_empty_text_redact (cfg : ServiceConfig) (store : TokenStore) (b : Bool) :
    serviceRedact cfg store [] b = (([], []), store) ∧
    serviceRedactAsync cfg store [] b = (([], []), store) ∧
    redactAsyncPath cfg.chunk_size cfg.async_threshold [] = ExecPath.empty :=
  ⟨rfl, rfl, rfl⟩

/-! ## C5 — async dispatch threshold -/

/-- C5: at a text length exactly equal to `async_threshold` (1000, the
default, with the default `chunk_size` 5000) `redact_async` runs inline,
although the claim — and the method's own docstring, "Medium text
(>= async_threshold): Uses executor" — requires dispatch to the executor:
the code tests `len(text) > self.async_threshold` instead of `>=`. -/
theorem c5_async_threshold_boundary :
    redactAsyncPath 5000 1000 (List.replicate 1000 'a') = ExecPath.inline ∧
    ExecPath.inline ≠ ExecPath.executor := by
  constructor
  · have h0 : (List.replicate 1000 'a').isEmpty = false := by
      have : List.replicate 1000 'a' = 'a' :: List.replicate 999 'a' := rfl
      rw [this]; rfl
    have hL : (List.replicate 1000 'a').length = 1000 := List.length_replicate 1000 'a'
    unfold redactAsyncPath
    rw [h0, hL]
    norm_num
  · decide

/-! ## C8 — detector failure degrades to no redaction -/

/-- C8: when the external detector call raises, `detect_pii` degrades to
the empty entity list and the cloud redaction of the segment is the input
text unchanged with zero tokens; no error propagates out of `redact`. -/
theorem c8_detector_failure_degrades
    (genId : List Char → Nat → List Char → List Char)
    (detector : List Char → Except (List Char) (List Entity))
    (text e : List Char) (h : detector text = .error e) :
    detectPii (detector text) = [] ∧
    cloudRedact genId detector text = (text, []) := by
  constructor
  · rw [h]; rfl
  · unfold cloudRedact
    rw [h]
    by_cases he : text.isEmpty
    · rw [List.isEmpty_iff.mp he]; simp
    · simp [he, detectPii, redactWithEntities]

/-- Witness for C8 at a concrete failing detector and text. -/
theorem c8_detector_failure_degrades_witness :
    detectPii ((fun _ : List Char => (.error (chars "boom") : Except (List Char) (List Entity))) (chars "abc")) = [] ∧
    cloudRedact (fun _ _ _ => []) (fun _ => .error (chars "boom")) (chars "abc") = (chars "abc", []) :=
  c8_detector_failure_degrades (fun _ _ _ => []) (fun _ => .error (chars "boom"))
    (chars "abc") (chars "boom") rfl

/-! ## C10 — passport validator accepts all 6–9 alphanumerics -/

/-- C10: the passport validator accepts every candidate whose
space-stripped form is alphanumeric of length 6–9: the "at least one
letter or fully numeric" test cannot reject such a candidate, because an
alphanumeric string with no letter is all digits. -/
theorem c10_passport_alnum_accepts (s : List Char)
    (h6 : 6 ≤ ((s.filter fun c => c ≠ ' ').length))
    (h9 : ((s.filter fun c => c ≠ ' ').length) ≤ 9)
    (ha : ∀ c ∈ s.filter fun c => c ≠ ' ', c.isAlphanum = true) :
    passportValidate s = true := by
  have hne : (s.filter fun c => c ≠ ' ').isEmpty = false := by
    rcases h : s.filter fun c => c ≠ ' ' with _ | ⟨c, t⟩
    · rw [h] at h6; simp at h6
    · rfl
  have halnum : (s.filter fun c => c ≠ ' ').all Char.isAlphanum = true :=
    List.all_eq_true.mpr ha
  have hletter :
      ((s.filter fun c => c ≠ ' ').any Char.isAlpha ||
        (!(s.filter fun c => c ≠ ' ').isEmpty &&
          (s.filter fun c => c ≠ ' ').all Char.isDigit)) = true := by
    by_cases hl : (s.filter fun c => c ≠ ' ').any Char.isAlpha = true
    · rw [hl, Bool.true_or]
    · have hdig : (s.filter fun c => c ≠ ' ').all Char.isDigit = true := by
        rw [List.all_eq_true]
        intro c hc
        have h1 : c.isAlphanum = true := ha c hc
        have h2 : ¬ c.isAlpha = true := fun hcl =>
          hl (List.any_eq_true.mpr ⟨c, hc, hcl⟩)
        rw [Char.isAlphanum] at h1
        rcases Bool.or_eq_true_iff.mp h1 with h' | h'
        · exact absurd h' h2
        · exact h'
      exact Bool.or_eq_true_iff.mpr (Or.inr (by rw [hne, hdig]; rfl))
  unfold passportValidate
  dsimp only
  split
  · next hcond =>
    exfalso
    rw [Bool.or_eq_true_iff, decide_eq_true_eq, decide_eq_true_eq] at hcond
    omega
  · split
    · next hcond =>
      rw [Bool.not_eq_eq_eq_not, Bool.not_true, hletter] at hcond
      exact absurd hcond (by decide)
    · split
      · next hcond =>
        rw [Bool.not_eq_eq_eq_not, Bool.not_true, hne, halnum] at hcond
        exact absurd hcond (by decide)
      · rfl

/-- Witness for C10 at a concrete candidate. -/
theorem c10_passport_alnum_accepts_witness :
    6 ≤ ((chars "AB 1234").filter fun c => c ≠ ' ').length ∧
    passportValidate (chars "AB 1234") = true :=
  ⟨by decide, c10_passport_alnum_accepts (chars "AB 1234") (by decide) (by decide) (by decide)⟩

/-! ## C1 — token positions against the original text -/

/-- C1, counterexample: with two configured matchers (literal patterns
`"ab"` then `"xyz"`, always-validating, with bracketed tag ids), the
second matcher's token on input `"ab xyz"` carries positions measured in
the intermediate text — `[13, 16)` — where the original input (length 6)
has no such span, so the claimed invariant fails as soon as an earlier
matcher's replacement before the token's position changed the length. -/
theorem c1_positions_original_counterexample :
    ¬ positionsOriginal (chars "ab xyz")
      (redactSingleLocal
        [litMatcher (chars "ab") (chars "[A_12345678]") (chars "A"),
         litMatcher (chars "xyz") (chars "[B_deadbeef]") (chars "B")]
        (chars "ab xyz") 0).2 := by
  decide

/-- C1, amended: the invariant each matcher actually maintains is relative
to the text *it* received: every token of one `BaseRedactor.redact` pass
over `text` with offset `sp` satisfies `text[start - sp : end - sp] =
original_value`.  For the first configured matcher (and whenever no earlier
matcher changed anything before the span) this is the original input. -/
theorem c1_matcher_positions_relative (m : Matcher) (text : List Char) (sp : Nat) :
    ∀ t ∈ (redactorRedact m text sp).2,
      pySlice text (t.start_pos - sp) (t.end_pos - sp) = t.original_value := by
  unfold redactorRedact
  induction m.find text with
  | nil => intro t ht; simp at ht
  | cons se rest IH =>
    intro t ht
    simp only [List.foldr_cons] at ht
    by_cases hv : m.validate (pySlice text se.1 se.2) = true
    · rw [if_pos hv] at ht
      rcases List.mem_cons.mp ht with h | h
      · subst h
        simp only [Nat.add_sub_cancel_left]
      · exact IH t h
    · rw [if_neg hv] at ht
      exact IH t ht

/-- Witness for the amended C1 at the first matcher of the counterexample
configuration. -/
theorem c1_matcher_positions_relative_witness :
    pySlice (chars "ab xyz") (2 - 0 - 2) (2 - 0) = chars "ab" := by
  have h := c1_matcher_positions_relative
    (litMatcher (chars "ab") (chars "[A_12345678]") (chars "A")) (chars "ab xyz") 0
    ⟨chars "[A_12345678]", chars "ab", chars "A", 0, 2⟩ (by decide)
  simpa using h

/-! ## C4 — credit card validator -/

/-- The map `everyOther` unfolds one element at a time. -/
theorem everyOther_cons (a : Nat) (t : List Nat) :
    everyOther (a :: t) = a :: everyOther (t.drop 1) := by
  cases t <;> rfl

/-- The code's slice-based Luhn sum agrees with the spec's
walk-from-the-right formulation (both parities at once). -/
theorem luhnFold_everyOther (xs : List Nat) :
    luhnFold xs false =
      (everyOther xs).sum + ((everyOther (xs.drop 1)).map doubleDigitSum).sum ∧
    luhnFold xs true =
      ((everyOther xs).map doubleDigitSum).sum + (everyOther (xs.drop 1)).sum := by
  induction xs with
  | nil => exact ⟨rfl, rfl⟩
  | cons a t IH =>
    constructor
    · rw [show luhnFold (a :: t) false = a + luhnFold t true from rfl, IH.2,
        everyOther_cons]
      simp only [List.sum_cons, List.drop_succ_cons, List.drop_zero]
      omega
    · rw [show luhnFold (a :: t) true = doubleDigitSum a + luhnFold t false from rfl, IH.1,
        everyOther_cons]
      simp only [List.map_cons, List.sum_cons, List.drop_succ_cons, List.drop_zero]
      omega

/-- The code's checksum is the folded checksum of the reversed digits,
mod 10. -/
theorem luhnChecksum_eq (ds : List Nat) :
    luhnChecksum ds = luhnFold ds.reverse false % 10 := by
  rw [luhnChecksum, (luhnFold_everyOther ds.reverse).1]

/-- C4, counterexample: `validate("4532148803436467")` is `false` — the
number the claim calls a valid Visa test number has Luhn sum 73, so the
correctly implemented Luhn check rejects it. -/
theorem c4_luhn_counterexample :
    creditCardValidate (chars "4532148803436467") = false := by decide

/-- C4, amended: the validator accepts exactly the candidates with 13–19
stripped digits and Luhn checksum 0 (stated through the independent
right-to-left doubling fold), and both of the claim's sample numbers are
rejected: `"1234567890123456"` as the claim says, and `"4532148803436467"`
as well, since its checksum is 3, not 0. -/
theorem c4_credit_card_validate_amended :
    (∀ s : List Char, creditCardValidate s = true ↔
      (13 ≤ (stripDigits s).length ∧ (stripDigits s).length ≤ 19 ∧
        luhnFold ((stripDigits s).map charVal).reverse false % 10 = 0)) ∧
    creditCardValidate (chars "4532148803436467") = false ∧
    creditCardValidate (chars "1234567890123456") = false := by
  refine ⟨fun s => ?_, by decide, by decide⟩
  unfold creditCardValidate
  dsimp only
  rw [luhnChecksum_eq]
  constructor
  · intro h
    by_cases hc : ((stripDigits s).length < 13 || (stripDigits s).length > 19) = true
    · rw [if_pos hc] at h
      exact absurd h (by decide)
    · rw [if_neg hc] at h
      simp only [Bool.or_eq_true_iff, decide_eq_true_eq, not_or, not_lt] at hc
      rw [beq_iff_eq] at h
      exact ⟨hc.1, hc.2, h⟩
  · rintro ⟨h1, h2, h3⟩
    have hc : ((stripDigits s).length < 13 || (stripDigits s).length > 19) = false := by
      simp only [Bool.or_eq_false_iff, decide_eq_false_iff_not, not_lt]
      omega
    rw [hc]
    simp only [Bool.false_eq_true, if_false, beq_iff_eq]
    exact h3

/-! ## C7 — SSN validator -/

/-- A digit character's value is at most 9. -/
theorem charVal_le_nine {c : Char} (h : c.isDigit = true) : charVal c ≤ 9 := by
  rw [Char.isDigit, Bool.and_eq_true, decide_eq_true_eq, decide_eq_true_eq] at h
  have h2 : c.val.toNat ≤ (57 : UInt32).toNat := by
    rw [UInt32.le_def, BitVec.le_def] at h
    exact h.2
  have : c.toNat ≤ 57 := h2
  unfold charVal
  omega

/-- The value of an all-digit string is below `10 ^ length`. -/
theorem digitsToNat_lt {l : List Char} (h : ∀ c ∈ l, c.isDigit = true) :
    digitsToNat l < 10 ^ l.length := by
  suffices H : ∀ (l : List Char) (a : Nat), (∀ c ∈ l, c.isDigit = true) →
      List.foldl (fun a c => a * 10 + charVal c) a l < (a + 1) * 10 ^ l.length by
    have := H l 0 h
    simp only [Nat.zero_add, Nat.one_mul] at this
    exact this
  intro l
  induction l with
  | nil => intro a _; simp
  | cons c t IH =>
    intro a hall
    have hc : charVal c ≤ 9 := charVal_le_nine (hall c (.head t))
    have hrec := IH (a * 10 + charVal c) (fun d hd => hall d (.tail c hd))
    have hstep : a * 10 + charVal c + 1 ≤ (a + 1) * 10 := by omega
    calc List.foldl (fun a c => a * 10 + charVal c) a (c :: t)
        = List.foldl (fun a c => a * 10 + charVal c) (a * 10 + charVal c) t := rfl
      _ < (a * 10 + charVal c + 1) * 10 ^ t.length := hrec
      _ ≤ ((a + 1) * 10) * 10 ^ t.length := Nat.mul_le_mul_right _ hstep
      _ = (a + 1) * 10 ^ (c :: t).length := by
          rw [List.length_cons, pow_succ]
          ring

/-- C7: the SSN validator accepts exactly the claimed set (9 stripped
digits, area not `000`/`666`/`900–999`, group not `00`, serial not
`0000`), and the claim's three samples behave as stated. -/
theorem c7_ssn_validate_exact :
    (∀ s : List Char, ssnValidate s = true ↔ ssnSpecOk s) ∧
    ssnValidate (chars "123-45-6789") = true ∧
    ssnValidate (chars "000-12-3456") = false ∧
    ssnValidate (chars "123-00-4567") = false := by
  refine ⟨fun s => ?_, by decide, by decide, by decide⟩
  unfold ssnValidate ssnSpecOk
  dsimp only
  by_cases hlen : (stripDigits s).length = 9
  · rw [if_neg (fun hne => hne hlen)]
    have e1 : pySlice (stripDigits s) 3 5 = ((stripDigits s).drop 3).take 2 := by
      rw [pySlice, List.drop_take]
    have e2 : pySlice (stripDigits s) 5 9 = (stripDigits s).drop 5 := by
      rw [pySlice, ← hlen, List.take_length]
    rw [e1, e2]
    have hdig : ∀ c ∈ stripDigits s, c.isDigit = true := fun c hc =>
      (List.mem_filter.mp hc).2
    have harea : digitsToNat ((stripDigits s).take 3) ≤ 999 := by
      have h3 : ((stripDigits s).take 3).length = 3 := by
        rw [List.length_take]
        omega
      have hb := digitsToNat_lt (l := (stripDigits s).take 3)
        (fun c hc => hdig c (List.mem_of_mem_take hc))
      rw [h3] at hb
      omega
    constructor
    · intro h
      by_cases h1 : (decide (digitsToNat ((stripDigits s).take 3) = 0) ||
          decide (digitsToNat ((stripDigits s).take 3) = 666) ||
          decide (digitsToNat ((stripDigits s).take 3) ≥ 900)) = true
      · rw [if_pos h1] at h
        exact absurd h (by decide)
      · rw [if_neg h1] at h
        simp only [Bool.or_eq_true_iff, decide_eq_true_eq, not_or, ge_iff_le,
          not_le] at h1
        by_cases h2 : digitsToNat (((stripDigits s).drop 3).take 2) = 0
        · rw [if_pos h2] at h
          exact absurd h (by decide)
        · rw [if_neg h2] at h
          by_cases h3 : digitsToNat ((stripDigits s).drop 5) = 0
          · rw [if_pos h3] at h
            exact absurd h (by decide)
          · refine ⟨hlen, h1.1.1, h1.1.2, ?_, h2, h3⟩
            intro ⟨h9, _⟩
            omega
    · rintro ⟨_, ha0, ha666, ha9, hg, hs⟩
      have h1 : ¬((decide (digitsToNat ((stripDigits s).take 3) = 0) ||
          decide (digitsToNat ((stripDigits s).take 3) = 666) ||
          decide (digitsToNat ((stripDigits s).take 3) ≥ 900)) = true) := by
        simp only [Bool.or_eq_true_iff, decide_eq_true_eq, not_or, ge_iff_le,
          not_le]
        refine ⟨⟨ha0, ha666⟩, ?_⟩
        rcases Nat.lt_or_ge (digitsToNat ((stripDigits s).take 3)) 900 with h' | h'
        · exact h'
        · exact absurd ⟨h', harea⟩ ha9
      rw [if_neg h1, if_neg hg, if_neg hs]
  · rw [if_pos hlen]
    simp only [Bool.false_eq_true, false_iff]
    intro ⟨h9, _⟩
    exact hlen h9

/-! ## C3 — chunk boundaries and concatenation -/

/-- What `rfind` reports: a hit is a space inside the window, and nothing
after it in the window is a space. -/
theorem rfindSpace_some {text : List Char} {start stop i : Nat}
    (h : rfindSpace text start stop = some i) :
    start ≤ i ∧ i < stop ∧ text.get? i = some ' ' ∧
      ∀ j, i < j → j < stop → text.get? j ≠ some ' ' := by
  induction stop with
  | zero => exact absurd h (by simp [rfindSpace])
  | succ s IH =>
    unfold rfindSpace at h
    by_cases hs : s + 1 ≤ start
    · rw [if_pos hs] at h
      exact absurd h (by simp)
    · rw [if_neg hs] at h
      by_cases hsp : text.get? s = some ' '
      · rw [if_pos hsp] at h
        obtain rfl : s = i := by injection h
        refine ⟨by omega, by omega, hsp, ?_⟩
        intro j hj1 hj2 _
        omega
      · rw [if_neg hsp] at h
        obtain ⟨ih1, ih2, ih3, ih4⟩ := IH h
        refine ⟨ih1, by omega, ih3, ?_⟩
        intro j hj1 hj2
        by_cases hje : j = s
        · rw [hje]; exact hsp
        · exact ih4 j hj1 (by omega)

/-- When `rfind` misses, the window holds no space. -/
theorem rfindSpace_none {text : List Char} {start stop : Nat}
    (h : rfindSpace text start stop = none) :
    ∀ j, start ≤ j → j < stop → text.get? j ≠ some ' ' := by
  induction stop with
  | zero => intro j _ hj; omega
  | succ s IH =>
    unfold rfindSpace at h
    by_cases hs : s + 1 ≤ start
    · intro j hj1 hj2
      omega
    · rw [if_neg hs] at h
      by_cases hsp : text.get? s = some ' '
      · rw [if_pos hsp] at h
        exact absurd h (by simp)
      · rw [if_neg hsp] at h
        intro j hj1 hj2
        by_cases hje : j = s
        · rw [hje]; exact hsp
        · exact IH h j hj1 (by omega)

/-- The chunk end makes progress and stays inside the text. -/
theorem chunkEnd_bounds {text : List Char} {csize start : Nat}
    (h1 : 1 ≤ csize) (h2 : start < text.length) :
    start < chunkEnd text csize start ∧ chunkEnd text csize start ≤ text.length := by
  unfold chunkEnd
  dsimp only
  by_cases he : min (start + csize) text.length < text.length
  · rw [if_pos he]
    split
    · next i hr =>
      obtain ⟨hi1, hi2, _, _⟩ := rfindSpace_some hr
      by_cases hlt : start < i
      · rw [if_pos hlt]
        constructor <;> omega
      · rw [if_neg hlt]
        constructor <;> omega
    · next hr =>
      constructor <;> omega
  · rw [if_neg he]
    constructor <;> omega

/-- Appending a slice to the rest of the list recovers the tail from the
slice's start. -/
theorem pySlice_append_drop {l : List Char} {a b : Nat} (hab : a ≤ b)
    (ha : a ≤ l.length) :
    pySlice l a b ++ l.drop b = l.drop a := by
  conv_rhs => rw [← List.take_append_drop b l]
  rw [List.drop_append_eq_append_drop]
  have hz : a - (l.take b).length = 0 := by
    rw [List.length_take]
    omega
  rw [hz, List.drop_zero, pySlice]

/-- The chunk loop, given enough fuel, covers exactly the tail of the text
from its start position. -/
theorem chunkLoopF_flatten {text : List Char} {csize : Nat} (h1 : 1 ≤ csize) :
    ∀ fuel start, text.length - start ≤ fuel →
      ((chunkLoopF text csize fuel start).map Prod.fst).flatten = text.drop start := by
  intro fuel
  induction fuel with
  | zero =>
    intro start h
    have : text.length ≤ start := by omega
    rw [List.drop_eq_nil_of_le this]
    rfl
  | succ f IH =>
    intro start h
    unfold chunkLoopF
    by_cases hs : text.length ≤ start
    · rw [if_pos hs, List.drop_eq_nil_of_le hs]
      rfl
    · rw [if_neg hs]
      dsimp only
      have hst : start < text.length := by omega
      obtain ⟨hp, hb⟩ := chunkEnd_bounds h1 hst
      rw [if_pos hp]
      rw [List.map_cons, List.flatten_cons]
      rw [IH (chunkEnd text csize start) (by omega)]
      exact pySlice_append_drop (by omega) (by omega)

/-- The slice of a chunk has length `end - start` when the end is in
range. -/
theorem pySlice_length {l : List Char} {a b : Nat} (hb : b ≤ l.length) :
    (pySlice l a b).length = b - a := by
  rw [pySlice, List.length_drop, List.length_take]
  omega

/-- Boundary discipline of the chunk loop: every produced chunk that does
not reach the end of the text either ends just after a space, or spans the
full window with no space strictly after the window start. -/
theorem chunkLoopF_bounds {text : List Char} {csize : Nat} (h1 : 1 ≤ csize) :
    ∀ fuel start, text.length - start ≤ fuel →
      ∀ p ∈ chunkLoopF text csize fuel start, p.2 + p.1.length < text.length →
        text.get? (p.2 + p.1.length - 1) = some ' ' ∨
        (p.1.length = csize ∧ ∀ j < p.2 + csize, p.2 < j → text.get? j ≠ some ' ') := by
  intro fuel
  induction fuel with
  | zero =>
    intro start _ p hp
    exact absurd hp (by simp [chunkLoopF])
  | succ f IH =>
    intro start hfuel p hp
    unfold chunkLoopF at hp
    by_cases hs : text.length ≤ start
    · rw [if_pos hs] at hp
      exact absurd hp (by simp)
    · rw [if_neg hs] at hp
      dsimp only at hp
      have hst : start < text.length := by omega
      obtain ⟨hprog, hend⟩ := chunkEnd_bounds h1 hst
      rw [if_pos hprog] at hp
      rcases List.mem_cons.mp hp with hph | hpt
      · subst hph
        intro hlt
        dsimp only at hlt ⊢
        rw [pySlice_length hend] at hlt ⊢
        revert hlt
        unfold chunkEnd
        dsimp only
        by_cases he : min (start + csize) text.length < text.length
        · rw [if_pos he]
          split
          · next i hr =>
            obtain ⟨hi1, hi2, hi3, hi4⟩ := rfindSpace_some hr
            by_cases hlt2 : start < i
            · rw [if_pos hlt2]
              intro _
              left
              have hidx : start + (i + 1 - start) - 1 = i := by omega
              rw [hidx]
              exact hi3
            · rw [if_neg hlt2]
              intro _
              right
              constructor
              · omega
              · intro j hj1 hj2
                exact hi4 j (by omega) (by omega)
          · next hr =>
            intro _
            right
            constructor
            · omega
            · intro j hj1 hj2
              exact rfindSpace_none hr j (by omega) (by omega)
        · rw [if_neg he]
          intro hlt
          omega
      · exact IH (chunkEnd text csize start) (by omega) p hpt

/-- C3, counterexample: with `chunk_size = 3` on `" aaaa"` the first chunk
is `" aa"` with boundary 3: position 2 is not a space, yet a space does
occur in the window `[0, 3)` (at index 0, which `rfind`'s `> start` test
ignores), so the claimed boundary condition fails; only the concatenation
half of the claim survives. -/
theorem c3_chunk_boundary_counterexample :
    ¬ (chunkBoundariesClaimed (chars " aaaa") 3 ∧ chunkJoined (chars " aaaa") 3) := by
  decide

/-- C3, amended: for a positive `chunk_size` smaller than the text length,
every chunk boundary before the end of the text either follows a space or
sits at the hard `chunk_size` limit with no space *strictly after* the
window's start position, and concatenating the chunk texts reproduces the
input exactly. -/
theorem c3_chunk_boundary_amended (text : List Char) (csize : Nat)
    (h1 : 0 < csize) (h2 : csize < text.length) :
    chunkBoundariesAmended text csize ∧ chunkJoined text csize := by
  constructor
  · intro p hp
    rw [chunkText, if_neg (by omega)] at hp
    exact chunkLoopF_bounds h1 text.length 0 (by omega) p hp
  · rw [chunkJoined, chunkText, if_neg (by omega)]
    rw [chunkLoopF_flatten h1 text.length 0 (by omega)]
    rfl

/-- Witness for the amended C3 at a concrete text and chunk size. -/
theorem c3_chunk_boundary_amended_witness :
    0 < 4 ∧ 4 < (chars "aaaa bbb").length ∧
    (chunkBoundariesAmended (chars "aaaa bbb") 4 ∧ chunkJoined (chars "aaaa bbb") 4) :=
  ⟨by decide, by decide, c3_chunk_boundary_amended (chars "aaaa bbb") 4 (by decide) (by decide)⟩

/-! ## C6 — IP address validator -/

/-- A character split never produces the empty list of pieces. -/
theorem splitOnChar_ne_nil (sep : Char) (l : List Char) : splitOnChar sep l ≠ [] := by
  cases l with
  | nil => simp [splitOnChar]
  | cons c cs => by_cases hc : c = sep <;> simp [splitOnChar, hc]

/-- Splitting after a leading separator starts with an empty piece. -/
theorem splitOnChar_cons_sep (sep : Char) (x : List Char) :
    splitOnChar sep (sep :: x) = [] :: splitOnChar sep x := by
  simp [splitOnChar]

/-- Splitting after a non-separator prepends it to the first piece. -/
theorem splitOnChar_cons_ne {sep c : Char} (hc : c ≠ sep) (x : List Char) :
    splitOnChar sep (c :: x) =
      (c :: (splitOnChar sep x).headI) :: (splitOnChar sep x).tail := by
  simp [splitOnChar, hc]

/-- The map `replaceDColon` collapses a leading `"::"`. -/
theorem replaceDColon_dcolon (t : List Char) :
    replaceDColon (':' :: ':' :: t) = ':' :: replaceDColon t := by
  simp [replaceDColon]

/-- The map `replaceDColon` walks over anything that is not a `"::"`. -/
theorem replaceDColon_cons_ne {c d : Char} (h : ¬(c = ':' ∧ d = ':'))
    (t : List Char) :
    replaceDColon (c :: d :: t) = c :: replaceDColon (d :: t) := by
  simp [replaceDColon, h]

/-- Two non-empty piece lists with the same first piece and the same
non-empty later pieces have the same non-empty pieces altogether. -/
theorem filter_eq_of_headI_tail {l₁ l₂ : List (List Char)} (hn₁ : l₁ ≠ [])
    (hn₂ : l₂ ≠ []) (hh : l₁.headI = l₂.headI)
    (ht : (l₁.tail.filter fun p => !p.isEmpty) = l₂.tail.filter fun p => !p.isEmpty) :
    (l₁.filter fun p => !p.isEmpty) = l₂.filter fun p => !p.isEmpty := by
  rcases l₁ with _ | ⟨h₁, t₁⟩
  · exact absurd rfl hn₁
  rcases l₂ with _ | ⟨h₂, t₂⟩
  · exact absurd rfl hn₂
  simp only [List.headI] at hh
  simp only [List.tail] at ht
  subst hh
  simp only [List.filter_cons, ht]

/-- Collapsing `"::"` to `":"` changes only the empty pieces of the colon
split: the first piece is unchanged, and the non-empty later pieces are
unchanged. -/
theorem replaceDColon_split_spec :
    ∀ n, ∀ s : List Char, s.length ≤ n →
      (splitOnChar ':' (replaceDColon s)).headI = (splitOnChar ':' s).headI ∧
      ((splitOnChar ':' (replaceDColon s)).tail.filter fun p => !p.isEmpty) =
        ((splitOnChar ':' s).tail.filter fun p => !p.isEmpty) := by
  intro n
  induction n with
  | zero =>
    intro s hs
    have : s = [] := List.eq_nil_of_length_eq_zero (by omega)
    subst this
    exact ⟨rfl, rfl⟩
  | succ n IH =>
    intro s hs
    rcases s with _ | ⟨c, t⟩
    · exact ⟨rfl, rfl⟩
    rcases t with _ | ⟨d, u⟩
    · exact ⟨rfl, rfl⟩
    rw [List.length_cons, List.length_cons] at hs
    by_cases hcd : c = ':' ∧ d = ':'
    · obtain ⟨rfl, rfl⟩ := hcd
      rw [replaceDColon_dcolon, splitOnChar_cons_sep, splitOnChar_cons_sep,
        splitOnChar_cons_sep]
      refine ⟨rfl, ?_⟩
      simp only [List.tail_cons]
      have hu := IH u (by omega)
      have hw : ((splitOnChar ':' (replaceDColon u)).filter fun p => !p.isEmpty) =
          (splitOnChar ':' u).filter fun p => !p.isEmpty :=
        filter_eq_of_headI_tail (splitOnChar_ne_nil _ _) (splitOnChar_ne_nil _ _)
          hu.1 hu.2
      rw [hw, List.filter_cons]
      simp
    · rw [replaceDColon_cons_ne hcd]
      have hdu := IH (d :: u) (by simp; omega)
      by_cases hc : c = ':'
      · subst hc
        rw [splitOnChar_cons_sep, splitOnChar_cons_sep]
        refine ⟨rfl, ?_⟩
        simp only [List.tail_cons]
        exact filter_eq_of_headI_tail (splitOnChar_ne_nil _ _)
          (splitOnChar_ne_nil _ _) hdu.1 hdu.2
      · rw [splitOnChar_cons_ne hc, splitOnChar_cons_ne hc]
        refine ⟨?_, ?_⟩
        · simp only [List.headI_cons]
          rw [hdu.1]
        · simp only [List.tail_cons]
          exact hdu.2

/-- The non-empty pieces of the collapsed split are exactly the groups of
the original candidate. -/
theorem ipGroups_replaceDColon (s : List Char) :
    ((splitOnChar ':' (replaceDColon s)).filter fun p => !p.isEmpty) = ipGroups s := by
  obtain ⟨hh, ht⟩ := replaceDColon_split_spec s.length s le_rfl
  exact filter_eq_of_headI_tail (splitOnChar_ne_nil _ _) (splitOnChar_ne_nil _ _)
    hh ht

/-- The per-piece hex test of `_validate_ipv6` over a piece list says
exactly that every non-empty piece is hex of length at most 4. -/
theorem ipv6_pieces_iff (L : List (List Char)) :
    (L.all fun part =>
      if part.isEmpty then true
      else
        match pyParseHex part with
        | some _ => !(part.length > 4)
        | none => false) = true ↔
    ∀ g ∈ L.filter fun p => !p.isEmpty,
      (∀ c ∈ g, isHexDigitChar c = true) ∧ g.length ≤ 4 := by
  rw [List.all_eq_true]
  constructor
  · intro h g hg
    obtain ⟨hgL, hgne⟩ := List.mem_filter.mp hg
    have hck := h g hgL
    rw [if_neg (by simp at hgne; simp [hgne])] at hck
    split at hck
    · next v heq =>
      have hcond : (!g.isEmpty && g.all isHexDigitChar) = true := by
        by_contra hcc
        rw [pyParseHex, if_neg hcc] at heq
        exact absurd heq (by simp)
      rw [Bool.and_eq_true] at hcond
      refine ⟨fun c hc => List.all_eq_true.mp hcond.2 c hc, ?_⟩
      simp only [Bool.not_eq_eq_eq_not, Bool.not_true, decide_eq_false_iff_not,
        not_lt] at hck
      exact hck
    · next heq => exact absurd hck (by decide)
  · intro h part hpart
    by_cases hpe : part.isEmpty = true
    · rw [if_pos hpe]
    · rw [if_neg hpe]
      have hg : part ∈ L.filter fun p => !p.isEmpty :=
        List.mem_filter.mpr ⟨hpart, by simp [hpe]⟩
      obtain ⟨hhex, hlen⟩ := h part hg
      have hcond : (!part.isEmpty && part.all isHexDigitChar) = true := by
        rw [Bool.and_eq_true]
        exact ⟨by simp [hpe], List.all_eq_true.mpr hhex⟩
      split
      · next v heq =>
        simp only [Bool.not_eq_eq_eq_not, Bool.not_true, decide_eq_false_iff_not,
          not_lt]
        exact hlen
      · next heq =>
        rw [pyParseHex, if_pos hcond] at heq
        exact absurd heq (by simp)

/-- The IPv4 validator accepts exactly the claim's octet condition. -/
theorem ipv4Validate_iff (s : List Char) :
    ipv4Validate s = true ↔ ipv4SpecOctets s := by
  unfold ipv4Validate ipv4SpecOctets
  dsimp only
  by_cases hlen : (splitOnChar '.' s).length = 4
  · rw [if_neg (fun h => h hlen)]
    rw [List.all_eq_true]
    constructor
    · intro h
      refine ⟨hlen, fun p hp => ?_⟩
      have hck := h p hp
      split at hck
      · next v heq =>
        have hcond : (!p.isEmpty && p.all Char.isDigit) = true := by
          by_contra hcc
          rw [pyParseNat, if_neg hcc] at heq
          exact absurd heq (by simp)
        have hval : v = digitsToNat p := by
          rw [pyParseNat, if_pos hcond] at heq
          injection heq with h'
          exact h'.symm
        rw [Bool.and_eq_true] at hcond
        obtain ⟨hne, hdig⟩ := hcond
        refine ⟨by simpa using hne, fun c hc => List.all_eq_true.mp hdig c hc, ?_⟩
        rw [hval] at hck
        simp only [Bool.not_eq_eq_eq_not, Bool.not_true, decide_eq_false_iff_not,
          not_lt] at hck
        exact hck
      · next heq => exact absurd hck (by decide)
    · rintro ⟨_, hall⟩ p hp
      obtain ⟨hne, hdig, hle⟩ := hall p hp
      have hcond : (!p.isEmpty && p.all Char.isDigit) = true := by
        rw [Bool.and_eq_true]
        exact ⟨by simpa using hne, List.all_eq_true.mpr hdig⟩
      split
      · next v heq =>
        have hval : v = digitsToNat p := by
          rw [pyParseNat, if_pos hcond] at heq
          injection heq with h'
          exact h'.symm
        rw [hval]
        simp only [Bool.not_eq_eq_eq_not, Bool.not_true, decide_eq_false_iff_not,
          not_lt]
        exact hle
      · next heq =>
        rw [pyParseNat, if_pos hcond] at heq
        exact absurd heq (by simp)
  · rw [if_pos hlen]
    simp only [Bool.false_eq_true, false_iff]
    intro ⟨h4, _⟩
    exact hlen h4

/-- The IPv6 validator accepts exactly the amended condition. -/
theorem ipv6Validate_iff (s : List Char) :
    ipv6Validate s = true ↔ ipv6SpecAmended s := by
  unfold ipv6Validate ipv6SpecAmended
  dsimp only
  rw [← ipGroups_replaceDColon s]
  by_cases hdc : hasDColon s = true
  · rw [if_pos hdc, if_pos hdc]
    by_cases h2 : (splitDColon s).length ≤ 2
    · rw [if_neg (by simp [h2])]
      rw [ipv6_pieces_iff]
      constructor
      · intro h
        exact ⟨h2, h⟩
      · intro h
        exact h.2
    · rw [if_pos (by simp [h2])]
      simp only [Bool.false_eq_true, false_iff]
      intro ⟨h', _⟩
      exact h2 h'
  · rw [if_neg hdc, if_neg hdc]
    by_cases h8 : (splitOnChar ':' s).length = 8
    · rw [if_neg (by simp [h8])]
      rw [ipv6_pieces_iff]
      constructor
      · intro h
        exact ⟨h8, h⟩
      · intro h
        exact h.2
    · rw [if_pos (by simp [h8])]
      simp only [Bool.false_eq_true, false_iff]
      intro ⟨h', _⟩
      exact h8 h'

/-- C6, counterexample: `"1:2:3:4:5:6:7:8::9"` — nine colon-separated
groups joined with one `::` — validates (the compressed branch never
counts groups), refuting the claimed 8-group bound. -/
theorem c6_ip_validate_counterexample :
    ¬ (∀ s : List Char, ipValidate s = true → ipv4SpecOctets s ∨ ipv6SpecClaimed s) := by
  intro h
  rcases h (chars "1:2:3:4:5:6:7:8::9") (by decide) with h4 | h6
  · exact absurd h4 (by decide)
  · exact absurd h6 (by decide)

/-- C6, amended: the validator accepts exactly the IPv4 octet condition or
the amended IPv6 condition, in which the 8-group bound applies only to
addresses without `::` (as exactly 8 split pieces); a compressed address is
checked only for at most 2 `::`-split pieces and hex groups of length at
most 4. -/
theorem c6_ip_validate_amended (s : List Char) :
    ipValidate s = true ↔ (ipv4SpecOctets s ∨ ipv6SpecAmended s) := by
  rw [ipValidate, Bool.or_eq_true_iff, ipv4Validate_iff, ipv6Validate_iff]

/-! ## C2 — unmask inverts redact

The proof works against a decomposition of the redacted text into plain
segments interleaved with token-id slots (`mixI`/`mixO`), under the bracket
discipline of `wfSlots`.  The heart is that `replaceFirst` walks over
bracket-free material and over other bracketed tags without firing, and
fires exactly at its own slot. -/

/-- The test `leadsWith` decides list-prefixhood. -/
theorem leadsWith_iff {pat l : List Char} : leadsWith pat l = true ↔ pat <+: l := by
  induction pat generalizing l with
  | nil => simp [leadsWith]
  | cons p ps IH =>
    cases l with
    | nil => simp [leadsWith]
    | cons c cs =>
      simp [leadsWith, Bool.and_eq_true, beq_iff_eq, IH, List.cons_prefix_cons]

/-- The map `replaceFirst` fires at an exact leading occurrence. -/
theorem replaceFirst_head (pat rep rest : List Char) :
    replaceFirst pat rep (pat ++ rest) = rep ++ rest := by
  have hl : leadsWith pat (pat ++ rest) = true := leadsWith_iff.mpr ⟨rest, rfl⟩
  cases hpr : pat ++ rest with
  | nil =>
    have hp : pat = [] := by
      cases pat with
      | nil => rfl
      | cons _ _ => simp at hpr
    have hr : rest = [] := by
      subst hp
      simpa using hpr
    subst hp
    subst hr
    simp [replaceFirst, leadsWith]
  | cons c cs =>
    rw [hpr] at hl
    rw [replaceFirst, if_pos hl, ← hpr, List.drop_left]

/-- The map `replaceFirst` walks over a block in which no occurrence of the pattern
starts. -/
theorem replaceFirst_append_skip {pat rep : List Char} (a x : List Char)
    (h : ∀ o < a.length, ¬ pat <+: (a.drop o ++ x)) :
    replaceFirst pat rep (a ++ x) = a ++ replaceFirst pat rep x := by
  induction a with
  | nil => simp
  | cons c a' IH =>
    have h0 : ¬ pat <+: (c :: (a' ++ x)) := by
      have := h 0 (by simp)
      simpa using this
    have hl : leadsWith pat (c :: (a' ++ x)) = false := by
      simp only [Bool.eq_false_iff, ne_eq, leadsWith_iff]
      exact h0
    have IH' := IH (fun o ho => by simpa using h (o + 1) (by simp [ho]))
    show replaceFirst pat rep ((c :: a') ++ x) = (c :: a') ++ replaceFirst pat rep x
    rw [List.cons_append, List.cons_append]
    rw [show replaceFirst pat rep (c :: (a' ++ x)) =
        if leadsWith pat (c :: (a' ++ x)) = true then
          rep ++ (c :: (a' ++ x)).drop pat.length
        else c :: replaceFirst pat rep (a' ++ x) from rfl]
    rw [hl]
    simp only [Bool.false_eq_true, if_false]
    rw [IH']

/-- A pattern that opens with `[` cannot start at a character that is not
`[`. -/
theorem not_prefix_cons_of_head {pat : List Char} {c : Char} {rest : List Char}
    (hp : ∃ pt, pat = '[' :: pt) (hc : c ≠ '[') : ¬ pat <+: (c :: rest) := by
  obtain ⟨pt, rfl⟩ := hp
  intro hpre
  rw [List.cons_prefix_cons] at hpre
  exact hc hpre.1.symm

/-- Two distinct bracketed tags cannot overlap: neither starts at the
other's opening bracket. -/
theorem shaped_not_prefix_append {a pat x : List Char} (ha : bracketShaped a)
    (hp : bracketShaped pat) (hne : pat ≠ a) : ¬ pat <+: (a ++ x) := by
  obtain ⟨am, hae, ham1, ham2⟩ := ha
  obtain ⟨pm, hpe, hpm1, hpm2⟩ := hp
  intro hpre
  have hmem_pat : ']' ∈ pat := by rw [hpe]; simp
  have hmem_a : ']' ∈ a := by rw [hae]; simp
  have ha_dropLast : a.dropLast = '[' :: am := by
    rw [hae, show ('[' :: (am ++ [']'])) = ('[' :: am) ++ [']'] by simp,
      List.dropLast_concat]
  have hp_dropLast : pat.dropLast = '[' :: pm := by
    rw [hpe, show ('[' :: (pm ++ [']'])) = ('[' :: pm) ++ [']'] by simp,
      List.dropLast_concat]
  have hane : a ≠ [] := by rw [hae]; simp
  have hpne : pat ≠ [] := by rw [hpe]; simp
  rcases Nat.lt_trichotomy pat.length a.length with hlt | heq | hgt
  · have hpa : pat <+: a :=
      List.prefix_of_prefix_length_le hpre (List.prefix_append a x) (by omega)
    have htp : a.take (a.length - 1) <+: a :=
      ⟨a.drop (a.length - 1), List.take_append_drop _ _⟩
    have h2 : pat <+: a.take (a.length - 1) :=
      List.prefix_of_prefix_length_le hpa htp (by rw [List.length_take]; omega)
    have h3 : pat <+: a.dropLast := by
      rw [List.dropLast_eq_take]
      exact h2
    have h4 : ']' ∈ a.dropLast := h3.subset hmem_pat
    rw [ha_dropLast] at h4
    rcases List.mem_cons.mp h4 with h' | h'
    · exact absurd h' (by decide)
    · exact ham2 h'
  · have : pat = a :=
      List.IsPrefix.eq_of_length
        (List.prefix_of_prefix_length_le hpre (List.prefix_append a x) (by omega)) heq
    exact hne this
  · have hap : a <+: pat :=
      List.prefix_of_prefix_length_le (List.prefix_append a x) hpre (by omega)
    have htp : pat.take (pat.length - 1) <+: pat :=
      ⟨pat.drop (pat.length - 1), List.take_append_drop _ _⟩
    have h2 : a <+: pat.take (pat.length - 1) :=
      List.prefix_of_prefix_length_le hap htp (by rw [List.length_take]; omega)
    have h3 : a <+: pat.dropLast := by
      rw [List.dropLast_eq_take]
      exact h2
    have h4 : ']' ∈ pat.dropLast := h3.subset hmem_a
    rw [hp_dropLast] at h4
    rcases List.mem_cons.mp h4 with h' | h'
    · exact absurd h' (by decide)
    · exact hpm2 h'

/-- The map `replaceFirst` walks over a bracket-free block. -/
theorem replaceFirst_skip_seg {pat rep : List Char} (a x : List Char)
    (ha : '[' ∉ a) (hp : bracketShaped pat) :
    replaceFirst pat rep (a ++ x) = a ++ replaceFirst pat rep x := by
  obtain ⟨pm, hpe, _, _⟩ := hp
  apply replaceFirst_append_skip
  intro o ho
  rcases hd : a.drop o with _ | ⟨c, rest⟩
  · have := List.drop_eq_nil_iff.mp hd
    omega
  · apply not_prefix_cons_of_head ⟨pm ++ [']'], hpe⟩
    intro hc
    subst hc
    exact ha (List.mem_of_mem_drop (hd ▸ List.mem_cons_self '[' rest))

/-- The map `replaceFirst` walks over a different bracketed tag. -/
theorem replaceFirst_skip_tag {pat rep : List Char} (a x : List Char)
    (ha : bracketShaped a) (hp : bracketShaped pat) (hne : pat ≠ a) :
    replaceFirst pat rep (a ++ x) = a ++ replaceFirst pat rep x := by
  apply replaceFirst_append_skip
  intro o ho
  rcases Nat.eq_zero_or_pos o with rfl | hpos
  · simpa using shaped_not_prefix_append ha hp hne
  · obtain ⟨am, hae, ham1, ham2⟩ := ha
    obtain ⟨pm, hpe, _, _⟩ := hp
    rcases hd : a.drop o with _ | ⟨c, rest⟩
    · have := List.drop_eq_nil_iff.mp hd
      omega
    · apply not_prefix_cons_of_head ⟨pm ++ [']'], hpe⟩
      intro hc
      subst hc
      have hsub : a.drop o = (a.drop 1).drop (o - 1) := by
        rw [List.drop_drop]
        congr 1
        omega
      have hcm : '[' ∈ a.drop 1 := by
        rw [hsub] at hd
        exact List.mem_of_mem_drop (hd ▸ List.mem_cons_self '[' rest)
      rw [hae] at hcm
      simp only [List.drop_succ_cons, List.drop_zero] at hcm
      rcases List.mem_append.mp hcm with h' | h'
      · exact ham1 h'
      · simp at h'

/-- The assembly `mixS` unfolds one slot at a time. -/
theorem mixS_cons (p : Slot × Bool) (ps : List (Slot × Bool)) (tail : List Char) :
    mixS (p :: ps) tail = p.1.seg ++ (if p.2 then p.1.orig else p.1.tid) ++ mixS ps tail :=
  rfl

/-- Restoring the first pending slot: `replaceFirst` walks over every slot
before it (restored originals and other tags alike) and fires exactly at
its own tag. -/
theorem replaceFirst_mixS_restore :
    ∀ (pre : List (Slot × Bool)) (post : List (Slot × Bool)) (sl : Slot) (tail : List Char),
      (∀ p ∈ pre, bracketFree p.1.seg ∧ bracketFree p.1.orig ∧
        bracketShaped p.1.tid ∧ p.1.tid ≠ sl.tid) →
      bracketFree sl.seg → bracketShaped sl.tid →
      replaceFirst sl.tid sl.orig (mixS (pre ++ (sl, false) :: post) tail) =
        mixS (pre ++ (sl, true) :: post) tail := by
  intro pre
  induction pre with
  | nil =>
    intro post sl tail _ hseg hshaped
    have h1 : mixS ((sl, false) :: post) tail = sl.seg ++ (sl.tid ++ mixS post tail) := by
      rw [mixS_cons]
      simp
    have h2 : mixS ((sl, true) :: post) tail = sl.seg ++ (sl.orig ++ mixS post tail) := by
      rw [mixS_cons]
      simp
    rw [List.nil_append, List.nil_append, h1, h2,
      replaceFirst_skip_seg _ _ hseg.1 hshaped, replaceFirst_head]
  | cons q pre' IH =>
    intro post sl tail hpre hseg hshaped
    have hq := hpre q (List.mem_cons_self q pre')
    have hpre' : ∀ p ∈ pre', bracketFree p.1.seg ∧ bracketFree p.1.orig ∧
        bracketShaped p.1.tid ∧ p.1.tid ≠ sl.tid :=
      fun p hp => hpre p (List.mem_cons_of_mem q hp)
    simp only [List.cons_append]
    rw [mixS_cons, mixS_cons, List.append_assoc, List.append_assoc,
      replaceFirst_skip_seg _ _ hq.1.1 hshaped]
    by_cases hq2 : q.2 = true
    · rw [if_pos hq2, replaceFirst_skip_seg _ _ hq.2.1.1 hshaped,
        IH post sl tail hpre' hseg hshaped]
    · rw [if_neg hq2, replaceFirst_skip_tag _ _ hq.2.2.1 hshaped (Ne.symm hq.2.2.2),
        IH post sl tail hpre' hseg hshaped]

/-- An unflagged decomposition with nothing pending shows the same text
fully restored. -/
theorem mixS_all_restored :
    ∀ (ps : List (Slot × Bool)) (tail : List Char), pendingS ps = [] →
      mixS ps tail = mixS (ps.map fun p => (p.1, true)) tail := by
  intro ps
  induction ps with
  | nil => intro tail _; rfl
  | cons p ps' IH =>
    intro tail hp
    have hp2 : p.2 = true := by
      by_contra hc
      have hb : (!p.2) = true := by simp [hc]
      simp [pendingS, List.filter_cons, hb] at hp
    have hps' : pendingS ps' = [] := by
      simp only [pendingS, List.filter_cons, hp2] at hp ⊢
      simpa using hp
    simp only [List.map_cons, mixS_cons, hp2, if_pos rfl, IH tail hps']

/-- Splitting `pendingS` over an append. -/
theorem pendingS_append (ps qs : List (Slot × Bool)) :
    pendingS (ps ++ qs) = pendingS ps ++ pendingS qs := by
  simp [pendingS, List.filter_append]

/-- The whole restoration: folding `replaceFirst` over any permutation of
the pending `(id, original)` pairs restores every slot. -/
theorem foldl_replaceFirst_mixS :
    ∀ (l : List (List Char × List Char)) (ps : List (Slot × Bool)) (tail : List Char),
      wfState ps tail → l.Perm (pendingS ps) →
      l.foldl (fun acc pr => replaceFirst pr.1 pr.2 acc) (mixS ps tail) =
        mixS (ps.map fun p => (p.1, true)) tail := by
  intro l
  induction l with
  | nil =>
    intro ps tail _ hperm
    have hpend : pendingS ps = [] := hperm.symm.eq_nil
    simp only [List.foldl_nil]
    exact mixS_all_restored ps tail hpend
  | cons pr l' IH =>
    intro ps tail hwf hperm
    have hmem : pr ∈ pendingS ps := hperm.subset (List.mem_cons_self pr l')
    obtain ⟨q, hqmem, hqpr⟩ := List.mem_map.mp hmem
    obtain ⟨hqps, hqflag⟩ := List.mem_filter.mp hqmem
    obtain ⟨sl, b⟩ := q
    have hb : b = false := by simpa using hqflag
    subst hb
    obtain ⟨pre, post, hps⟩ := List.append_of_mem hqps
    subst hps
    have hpr : pr = (sl.tid, sl.orig) := hqpr.symm
    subst hpr
    obtain ⟨hslots, htail, hdist⟩ := hwf
    have hsl : bracketFree sl.seg ∧ bracketFree sl.orig ∧ bracketShaped sl.tid := by
      apply hslots
      simp
    have hpre : ∀ p ∈ pre, bracketFree p.1.seg ∧ bracketFree p.1.orig ∧
        bracketShaped p.1.tid ∧ p.1.tid ≠ sl.tid := by
      intro p hp
      have h1 := hslots p.1 (by
        rw [List.map_append, List.mem_append]
        left
        exact List.mem_map_of_mem Prod.fst hp)
      refine ⟨h1.1, h1.2.1, h1.2.2, ?_⟩
      have hd2 := hdist
      rw [List.map_append, List.map_cons, List.map_append, List.map_cons,
        List.pairwise_append] at hd2
      exact hd2.2.2 p.1.tid
        (List.mem_map_of_mem Slot.tid (List.mem_map_of_mem Prod.fst hp))
        sl.tid (List.mem_cons_self _ _)
    rw [List.foldl_cons,
      replaceFirst_mixS_restore pre post sl tail hpre hsl.1 hsl.2.2]
    have hwf' : wfState (pre ++ (sl, true) :: post) tail := by
      refine ⟨?_, htail, ?_⟩
      · intro s hs
        apply hslots
        simp only [List.map_append, List.map_cons, List.mem_append, List.mem_cons] at hs ⊢
        tauto
      · have : ((pre ++ (sl, true) :: post).map Prod.fst).map Slot.tid =
            ((pre ++ (sl, false) :: post).map Prod.fst).map Slot.tid := by
          simp [List.map_append]
        rw [this]
        exact hdist
    have hperm' : l'.Perm (pendingS (pre ++ (sl, true) :: post)) := by
      have hpe : pendingS (pre ++ (sl, false) :: post) =
          pendingS pre ++ (sl.tid, sl.orig) :: pendingS post := by
        rw [pendingS_append]
        simp [pendingS, List.filter_cons]
      have hpe' : pendingS (pre ++ (sl, true) :: post) =
          pendingS pre ++ pendingS post := by
        rw [pendingS_append]
        simp [pendingS, List.filter_cons]
      rw [hpe] at hperm
      rw [hpe']
      exact (hperm.trans List.perm_middle).cons_inv
    have hmap : (pre ++ (sl, true) :: post).map (fun p => (p.1, true)) =
        (pre ++ (sl, false) :: post).map fun p => (p.1, true) := by
      simp [List.map_append]
    rw [IH (pre ++ (sl, true) :: post) tail hwf' hperm', hmap]

/-- Pending pairs of a fully unrestored decomposition. -/
theorem pendingS_map_false (slots : List Slot) :
    pendingS (slots.map fun s => (s, false)) = slots.map fun s => (s.tid, s.orig) := by
  induction slots with
  | nil => rfl
  | cons s ss IH =>
    simp only [List.map_cons, pendingS, List.filter_cons] at IH ⊢
    simpa using IH

/-- A fully unrestored decomposition shows the redacted text. -/
theorem mixS_map_false (slots : List Slot) (tail : List Char) :
    mixS (slots.map fun s => (s, false)) tail = mixI slots tail := by
  induction slots with
  | nil => rfl
  | cons s ss IH =>
    simp only [List.map_cons, mixS_cons, mixI, mixWith, List.foldr_cons] at IH ⊢
    rw [IH]
    simp [mixI, mixWith]

/-- A fully restored decomposition shows the original text. -/
theorem mixS_map_true (slots : List Slot) (tail : List Char) :
    mixS ((slots.map fun s => (s, false)).map fun p => (p.1, true)) tail =
      mixO slots tail := by
  induction slots with
  | nil => rfl
  | cons s ss IH =>
    simp only [List.map_cons, mixS_cons] at IH ⊢
    rw [IH]
    simp [mixO, mixWith]

/-- Running `unmask` against a well-formed decomposition restores the original
text, whatever order the sort produces. -/
theorem unmask_mix (slots : List Slot) (tail : List Char) (tokens : List RToken)
    (hperm : (tokens.map fun t => (t.token_id, t.original_value)).Perm
      (slots.map fun s => (s.tid, s.orig)))
    (hwf : wfSlots slots tail) :
    unmask (mixI slots tail) tokens = mixO slots tail := by
  unfold unmask
  by_cases hemp : tokens.isEmpty
  · rw [if_pos hemp]
    have ht : tokens = [] := by
      cases tokens with
      | nil => rfl
      | cons a l => simp at hemp
    subst ht
    have hmap : slots.map (fun s => (s.tid, s.orig)) = [] := by
      simpa using hperm.symm.eq_nil
    have hs : slots = [] := by
      cases slots with
      | nil => rfl
      | cons a l => simp at hmap
    subst hs
    rfl
  · rw [if_neg hemp]
    have hfold : ∀ (L : List RToken) (init : List Char),
        L.foldl (fun acc t => replaceFirst t.token_id t.original_value acc) init =
          (L.map fun t => (t.token_id, t.original_value)).foldl
            (fun acc pr => replaceFirst pr.1 pr.2 acc) init := by
      intro L
      induction L with
      | nil => intro init; rfl
      | cons t ts IH => intro init; simp only [List.foldl_cons, List.map_cons, IH]
    rw [hfold]
    have hmsperm : ((tokens.mergeSort fun a b => Nat.ble b.start_pos a.start_pos).map
        fun t => (t.token_id, t.original_value)).Perm
          (pendingS (slots.map fun s => (s, false))) := by
      rw [pendingS_map_false]
      exact ((List.mergeSort_perm tokens _).map _).trans hperm
    have hwfS : wfState (slots.map fun s => (s, false)) tail := by
      unfold wfState
      have : ∀ l : List Slot, (l.map fun s => (s, false)).map Prod.fst = l := by
        intro l
        induction l with
        | nil => rfl
        | cons a t IH => simp only [List.map_cons, IH]
      rw [this]
      exact hwf
    rw [← mixS_map_false slots tail,
      foldl_replaceFirst_mixS _ _ _ hwfS hmsperm, mixS_map_true]

/-- Fresh-key inserts append: storing tokens whose ids are new and
pairwise distinct appends them in order. -/
theorem storeTokens_values :
    ∀ (toks : List RToken) (store : TokenStore),
      (∀ t ∈ toks, ∀ p ∈ store, p.1 ≠ t.token_id) →
      (toks.map RToken.token_id).Nodup →
      storeValues (storeTokens store toks) = storeValues store ++ toks := by
  intro toks
  induction toks with
  | nil =>
    intro store _ _
    simp [storeTokens, storeValues]
  | cons t ts IH =>
    intro store hfresh hnd
    have hput : storePut store t = store ++ [(t.token_id, t)] := by
      rw [storePut, if_neg]
      simp only [List.any_eq_true, decide_eq_true_eq, not_exists]
      intro p hp
      exact hfresh t (List.mem_cons_self t ts) p hp.1 hp.2
    have hstep : storeTokens store (t :: ts) = storeTokens (store ++ [(t.token_id, t)]) ts := by
      rw [storeTokens, List.foldl_cons, hput, storeTokens]
    rw [hstep, IH (store ++ [(t.token_id, t)]) ?fresh ?nd]
    · simp [storeValues]
    case fresh =>
      intro t' ht' p hp
      rcases List.mem_append.mp hp with h' | h'
      · exact hfresh t' (List.mem_cons_of_mem t ht') p h'
      · have hpe : p = (t.token_id, t) := by simpa using h'
        rw [hpe]
        intro hcontra
        have hc2 : t.token_id = t'.token_id := hcontra
        have : t.token_id ∈ ts.map RToken.token_id := by
          rw [hc2]
          exact List.mem_map_of_mem RToken.token_id ht'
        exact (List.nodup_cons.mp hnd).1 this
    case nd => exact (List.nodup_cons.mp hnd).2

/-- Storing a result's tokens into an empty store keeps them in order. -/
theorem storeValues_storeTokens_nil (toks : List RToken)
    (h : (toks.map RToken.token_id).Nodup) :
    storeValues (storeTokens ([] : TokenStore) toks) = toks := by
  have := storeTokens_values toks [] (by intro t _ p hp; simp at hp) h
  simpa [storeValues] using this

/-- C2: for a service call `redact(x, store_tokens=True)` on a fresh store
whose result decomposes into plain segments and token slots — the shape the
claim's "text containing only detectable, validator-passing PII" guarantees,
with the spec's token-id invariant ("cannot collide with ordinary text",
unique ids) captured by `wfSlots`'s bracket discipline — `unmask` with the
stored tokens returns exactly the original text. -/
theorem c2_unmask_redact_roundtrip (cfg : ServiceConfig) (text : List Char)
    (slots : List Slot) (tail : List Char)
    (hred : (serviceRedact cfg [] text true).1.1 = mixI slots tail)
    (horig : text = mixO slots tail)
    (hperm : ((serviceRedact cfg [] text true).1.2.map
        fun t => (t.token_id, t.original_value)).Perm
      (slots.map fun s => (s.tid, s.orig)))
    (hwf : wfSlots slots tail) :
    serviceUnmask (serviceRedact cfg [] text true).2
      (serviceRedact cfg [] text true).1.1 = text := by
  by_cases hemp : text.isEmpty
  · have hsr : serviceRedact cfg [] text true = (([], []), []) := by
      rw [serviceRedact, if_pos hemp]
    rw [hsr] at hred hperm ⊢
    have hmap : slots.map (fun s => (s.tid, s.orig)) = [] := by
      simpa using hperm.symm.eq_nil
    have hs : slots = [] := by
      cases slots with
      | nil => rfl
      | cons a l => simp at hmap
    subst hs
    have htail : tail = [] := hred.symm
    rw [horig, htail]
    rfl
  · have hsr1 : (serviceRedact cfg [] text true).1 = serviceRedactCore cfg text := by
      rw [serviceRedact, if_neg hemp]
    have hsr2 : (serviceRedact cfg [] text true).2 =
        storeTokens [] (serviceRedactCore cfg text).2 := by
      rw [serviceRedact, if_neg hemp]
      rfl
    have hperm' : ((serviceRedactCore cfg text).2.map
        fun t => (t.token_id, t.original_value)).Perm
          (slots.map fun s => (s.tid, s.orig)) := by
      rw [← hsr1]
      exact hperm
    have hnd : ((serviceRedactCore cfg text).2.map RToken.token_id).Nodup := by
      have h2 := hperm'.map Prod.fst
      simp only [List.map_map] at h2
      have hslnd : (slots.map fun s =>
          (Prod.fst ∘ fun s => (s.tid, s.orig)) s).Nodup := by
        simpa [Function.comp] using hwf.2.2
      exact (h2.nodup_iff).mpr hslnd
    rw [serviceUnmask, hsr2, storeValues_storeTokens_nil _ hnd, hred]
    have htok : (serviceRedact cfg [] text true).1.2 = (serviceRedactCore cfg text).2 := by
      rw [hsr1]
    rw [← htok] at hperm'
    rw [show (serviceRedactCore cfg text).2 = (serviceRedact cfg [] text true).1.2 from
      by rw [hsr1]]
    rw [unmask_mix slots tail _ (by rw [htok]; exact (htok ▸ hperm')) hwf]
    exact horig.symm

/-- Witness for C2: a one-matcher service on input `"ab"` produces
`"[A12345678]"` with one token, and unmasking with the stored tokens
returns `"ab"`. -/
theorem c2_unmask_redact_roundtrip_witness :
    serviceUnmask
      (serviceRedact
        ⟨[litMatcher (chars "ab") (chars "[A12345678]") (chars "A")], 100, 0⟩
        [] (chars "ab") true).2
      (serviceRedact
        ⟨[litMatcher (chars "ab") (chars "[A12345678]") (chars "A")], 100, 0⟩
        [] (chars "ab") true).1.1 = chars "ab" := by
  apply c2_unmask_redact_roundtrip
    ⟨[litMatcher (chars "ab") (chars "[A12345678]") (chars "A")], 100, 0⟩
    (chars "ab") [⟨[], chars "[A12345678]", chars "ab"⟩] []
  · decide
  · decide
  · decide
  · refine ⟨?_, by decide, ?_⟩
    · intro s hs
      have hse : s = ⟨[], chars "[A12345678]", chars "ab"⟩ := by
        simpa using hs
      subst hse
      refine ⟨by decide, by decide, ⟨chars "A12345678", by decide, by decide, by decide⟩⟩
    · simp
